import Mathlib

/-!
Verification of the keyword-extraction pipeline in src/word_extractor.py.

Strings are modelled as lists of characters; the Python dict `keyword_list`
(insertion-ordered) is modelled as an association list.  The two external
collaborators (the nltk sentence tokenizer and the yake keyword scorer) are
oracles passed as plain functions; none of the verified properties depends on
their behaviour.
-/

namespace WordExtractor

/-- Strings are modelled as lists of characters. -/
abbrev Str := List Char

/-- One value of the aggregation dictionary `keyword_list`: the inner dict with
keys count, source, sentence built by `_add_kw_to_dict`. -/
structure Entry where
  count : Nat
  source : List Str
  sentence : List Str
deriving DecidableEq

/-- The aggregation dictionary `keyword_list`.  Python dicts preserve insertion
order, so it is an insertion-ordered association list from term to entry. -/
abbrev Table := List (Str × Entry)

/-- Python `str.lower()`, character-wise case mapping. -/
def lowerStr (s : Str) : Str := s.map Char.toLower

/-- Models `self.keyword_list.get(word)` (line 95).  An entry dict is always a
nonempty dict, hence truthy, so the truthiness test in `_add_kw_to_dict` is
exactly key membership. -/
def dictGet (w : Str) : Table → Option Entry
  | [] => none
  | (k, e) :: rest => if k = w then some e else dictGet w rest

/-- Embeds `WordExtractor._add_kw_to_dict` (lines 88-105): if the word is a key,
increment count, append the source only if not already present, append the
sentence unconditionally; otherwise insert a fresh entry (at the end, matching
dict insertion order). -/
def add_kw_to_dict (word source sentence : Str) : Table → Table
  | [] => [(word, ⟨1, [source], [sentence]⟩)]
  | (k, e) :: rest =>
    if k = word then
      (k, ⟨e.count + 1,
           if source ∈ e.source then e.source else e.source ++ [source],
           e.sentence ++ [sentence]⟩) :: rest
    else (k, e) :: add_kw_to_dict word source sentence rest

/-- The Aggregator accumulate operation of the spec: line 125 of
`process_file_list` calls `_add_kw_to_dict` with the term lowercased
(`word.lower()`). -/
def accumulate (term source sentence : Str) (t : Table) : Table :=
  add_kw_to_dict (lowerStr term) source sentence t

/-- Runs a finite sequence of accumulate calls (term, source, sentence) in
order. -/
def runCalls : List (Str × Str × Str) → Table → Table
  | [], t => t
  | (term, source, sentence) :: rest, t => runCalls rest (accumulate term source sentence t)

/-- Embeds `WordExtractor._filter_rows` (lines 107-114): drop blacklisted terms,
keep entries whose count reaches the limit. -/
def filter_rows (blacklist : List Str) (limit : Nat) : Table → Table
  | [] => []
  | (k, e) :: rest =>
    if k ∈ blacklist then filter_rows blacklist limit rest
    else if e.count ≥ limit then (k, e) :: filter_rows blacklist limit rest
    else filter_rows blacklist limit rest

/-- The literal substring pattern of `_clean_text`, the nine-byte text al Qaeda
(the space written as `Char.ofNat 32`). -/
def alQaedaPat : Str := ['a', 'l', Char.ofNat 32, 'Q', 'a', 'e', 'd', 'a']

/-- The replacement string alqaeda of `_clean_text`. -/
def alqaedaRep : Str := ['a', 'l', 'q', 'a', 'e', 'd', 'a']

/-- Python substring membership (line 44): some position of the text starts
with the pattern. -/
def containsAlQaeda : Str → Bool
  | [] => false
  | c :: cs => alQaedaPat.isPrefixOf (c :: cs) || containsAlQaeda cs

/-- Python `text.replace` for the fixed pattern (line 45): scan left to right;
at a match, emit the replacement and continue after the non-overlapping match
(the pattern has eight characters: one consumed as the head, seven dropped from
the tail); otherwise copy one character.  The fuel argument makes the recursion
structural; every step consumes at least one character, so fuel equal to the
length of the text (as supplied by `replaceAlQaeda`) is never exhausted. -/
def replaceFuel : Nat → Str → Str
  | _, [] => []
  | 0, s => s
  | fuel + 1, c :: cs =>
    if alQaedaPat.isPrefixOf (c :: cs) then
      alqaedaRep ++ replaceFuel fuel (cs.drop 7)
    else c :: replaceFuel fuel cs

/-- Python `text.replace` applied with enough fuel. -/
def replaceAlQaeda (s : Str) : Str := replaceFuel s.length s

/-- Embeds `WordExtractor._clean_text` (lines 37-46), the text normalizer: one
conditional literal rewrite. -/
def clean_text (text : Str) : Str :=
  if containsAlQaeda text then replaceAlQaeda text else text

/-- Matching of the part of the glob pattern after the star: the literal
characters txt must equal the rest of the name exactly. -/
def matchTxt (s : Str) : Bool := decide (s = ['t', 'x', 't'])

/-- Wildcard matching for the glob pattern star-t-x-t: the star matches an
arbitrary amount of leading characters, trying every split point. -/
def matchStarTxt : Str → Bool
  | [] => matchTxt []
  | c :: cs => matchTxt (c :: cs) || matchStarTxt cs

/-- Models the glob call of line 133 on one directory entry: the pattern is
star-t-x-t (no dot), matched against the base name; glob never matches hidden
names (leading dot) with a star. -/
def glob_txt_match (name : Str) : Bool :=
  if name.head? = some '.' then false else matchStarTxt name

/-- The set of files processed by one run of `main`: the directory entries
matched by the glob call on line 133, in listing order. -/
def matched_files (listing : List Str) : List Str := listing.filter glob_txt_match

/-- Follows the words of the spec (section 6), not the code: a name matches the
star-dot-txt naming pattern, i.e. ends with the extension dot-t-x-t.  Declared
only to compare the spec with the code's glob. -/
def spec_txt_match (name : Str) : Bool := List.isSuffixOf ['.', 't', 'x', 't'] name

/-- Embeds `WordExtractor._extract_keywords` (lines 48-60) with the yake scorer
as an oracle: normalize the text, then ask the scorer for keyword strings. -/
def extract_keywords (scorer : Str → List Str) (text : Str) : List Str :=
  scorer (clean_text text)

/-- Embeds `WordExtractor._make_sentence_list` (lines 74-86) with the nltk
sentence tokenizer as an oracle; pairs are (sentence, source). -/
def make_sentence_list (sentencesOf : Str → List Str) : List Str → List (Str × Str)
  | [] => []
  | f :: rest => (sentencesOf f).map (fun s => (s, f)) ++ make_sentence_list sentencesOf rest

/-- Inner loop of `process_file_list` (lines 124-125) over the keywords of one
sentence row: each keyword is lowercased and added to the dictionary. -/
def addWords (source sentence : Str) : List Str → Table → Table
  | [], t => t
  | w :: ws, t => addWords source sentence ws (add_kw_to_dict (lowerStr w) source sentence t)

/-- Outer loop of `process_file_list` (lines 122-125) over the sentence rows. -/
def addRows (scorer : Str → List Str) : List (Str × Str) → Table → Table
  | [], t => t
  | (sentence, source) :: rest, t =>
    addRows scorer rest (addWords source sentence (extract_keywords scorer sentence) t)

/-- The hardcoded blacklist (lines 32-35). -/
def blacklistDefault : List Str :=
  (["year", "years", "day", "time", "make", "made", "easy", "hard", "stop", "good", "looked",
    "long", "making", "left", "stand", "pass", "true", "ago", "longer", "times", "turned",
    "greater", "and", "thing", "told", "thought", "changed", "words", "fact"]).map String.toList

/-- Embeds `WordExtractor.process_file_list` (lines 116-126): build the sentence
list, accumulate every extracted keyword, then filter; returns the pair
(keyword_list, keyword_list_filtered). -/
def process_file_list (sentencesOf scorer : Str → List Str) (blacklist : List Str) (limit : Nat)
    (file_list : List Str) : Table × Table :=
  let kl := addRows scorer (make_sentence_list sentencesOf file_list) []
  (kl, filter_rows blacklist limit kl)

/-- Insertion of a row into a list already sorted by count descending. -/
def insertByCount (p : Str × Entry) : List (Str × Entry) → List (Str × Entry)
  | [] => [p]
  | q :: rest => if p.2.count ≤ q.2.count then q :: insertByCount p rest else p :: q :: rest

/-- Rows sorted by count descending, as `sort_values` produces on success. -/
def sortByCountDesc (t : Table) : Table := t.foldr insertByCount []

/-- Models the reporting step of `main` (lines 136-139).  pandas builds the
frame from the filtered dict and transposes it, so the columns count, source,
sentence exist exactly when the dict is nonempty; `sort_values` on the count
column of the empty, column-less frame raises KeyError, aborting the run before
any csv is written.  On a nonempty table the rows are sorted by count
descending and the export succeeds. -/
def report (t : Table) : Except String Table :=
  match t with
  | [] => Except.error "KeyError: count"
  | _ => Except.ok (sortByCountDesc t)

/-- Embeds `main` (lines 129-140) after file discovery: process the file list
with the default blacklist, then report. -/
def main_run (sentencesOf scorer : Str → List Str) (limit : Nat)
    (file_list : List Str) : Except String Table :=
  report (process_file_list sentencesOf scorer blacklistDefault limit file_list).2

/-! Helper lemmas shared by several results. -/

/-- Looking up the added word after `_add_kw_to_dict` when it was absent. -/
theorem dictGet_add_of_none (w s x : Str) (t : Table) (h : dictGet w t = none) :
    dictGet w (add_kw_to_dict w s x t) = some ⟨1, [s], [x]⟩ := by
  induction t with
  | nil => simp [add_kw_to_dict, dictGet]
  | cons p rest ih =>
    obtain ⟨k, e⟩ := p
    by_cases hk : k = w
    · simp [dictGet, hk] at h
    · simp only [dictGet, if_neg hk] at h
      simp [add_kw_to_dict, hk, dictGet, ih h]

/-- Looking up the added word after `_add_kw_to_dict` when it was present. -/
theorem dictGet_add_of_some (w s x : Str) (t : Table) (e : Entry) (h : dictGet w t = some e) :
    dictGet w (add_kw_to_dict w s x t) =
      some ⟨e.count + 1, if s ∈ e.source then e.source else e.source ++ [s],
            e.sentence ++ [x]⟩ := by
  induction t with
  | nil => simp [dictGet] at h
  | cons p rest ih =>
    obtain ⟨k, e0⟩ := p
    by_cases hk : k = w
    · simp only [dictGet, if_pos hk] at h
      cases h
      simp [add_kw_to_dict, hk, dictGet]
    · simp only [dictGet, if_neg hk] at h
      simp [add_kw_to_dict, hk, dictGet, ih h]

/-- Accumulation preserves the per-entry property that count equals the number
of recorded sentences. -/
theorem add_preserves_count_len (w s x : Str) (t : Table)
    (h : ∀ p ∈ t, p.2.count = p.2.sentence.length) :
    ∀ p ∈ add_kw_to_dict w s x t, p.2.count = p.2.sentence.length := by
  induction t with
  | nil =>
    intro p hp
    simp only [add_kw_to_dict, List.mem_singleton] at hp
    subst hp
    simp
  | cons q rest ih =>
    obtain ⟨k, e⟩ := q
    intro p hp
    by_cases hk : k = w
    · simp only [add_kw_to_dict, if_pos hk, List.mem_cons] at hp
      rcases hp with hp | hp
      · subst hp
        have he := h (k, e) (by simp)
        simp only at he
        simp [he]
      · exact h p (List.mem_cons_of_mem _ hp)
    · simp only [add_kw_to_dict, if_neg hk, List.mem_cons] at hp
      rcases hp with hp | hp
      · subst hp
        exact h (k, e) (by simp)
      · exact ih (fun q hq => h q (List.mem_cons_of_mem _ hq)) p hp

/-- Accumulation preserves the per-entry property that the recorded sources
hold no duplicates. -/
theorem add_preserves_nodup (w s x : Str) (t : Table)
    (h : ∀ p ∈ t, p.2.source.Nodup) :
    ∀ p ∈ add_kw_to_dict w s x t, p.2.source.Nodup := by
  induction t with
  | nil =>
    intro p hp
    simp only [add_kw_to_dict, List.mem_singleton] at hp
    subst hp
    simp
  | cons q rest ih =>
    obtain ⟨k, e⟩ := q
    intro p hp
    by_cases hk : k = w
    · simp only [add_kw_to_dict, if_pos hk, List.mem_cons] at hp
      rcases hp with hp | hp
      · subst hp
        have he := h (k, e) (by simp)
        simp only at he
        by_cases hs : s ∈ e.source
        · simpa [hs] using he
        · simp only [if_neg hs]
          exact he.append (List.nodup_singleton s) (List.disjoint_singleton.mpr hs)
      · exact h p (List.mem_cons_of_mem _ hp)
    · simp only [add_kw_to_dict, if_neg hk, List.mem_cons] at hp
      rcases hp with hp | hp
      · subst hp
        exact h (k, e) (by simp)
      · exact ih (fun q hq => h q (List.mem_cons_of_mem _ hq)) p hp

/-- Any per-entry property preserved by one accumulate step is preserved by a
whole sequence of calls. -/
theorem runCalls_preserves (P : Str × Entry → Prop)
    (hstep : ∀ w s x t, (∀ p ∈ t, P p) → ∀ p ∈ add_kw_to_dict w s x t, P p)
    (calls : List (Str × Str × Str)) :
    ∀ t : Table, (∀ p ∈ t, P p) → ∀ p ∈ runCalls calls t, P p := by
  induction calls with
  | nil => intro t h p hp; exact h p hp
  | cons c rest ih =>
    obtain ⟨term, source, sentence⟩ := c
    intro t h
    exact ih _ (hstep (lowerStr term) source sentence t h)

/-- Normalization leaves a text alone when the pattern does not occur in it. -/
theorem clean_text_of_not_contains (y : Str) (h : containsAlQaeda y = false) :
    clean_text y = y := by
  simp [clean_text, h]

/-- Characterisation of the star clause of the glob pattern: the star absorbs
any leading characters, so a name matches exactly when it ends with txt. -/
theorem matchStarTxt_iff (s : Str) : matchStarTxt s = true ↔ ['t', 'x', 't'] <:+ s := by
  induction s with
  | nil => simp [matchStarTxt, matchTxt]
  | cons c cs ih =>
    simp only [matchStarTxt, matchTxt, Bool.or_eq_true, decide_eq_true_eq, ih,
      List.suffix_cons_iff]
    exact ⟨fun h => h.imp (fun h => h.symm) id, fun h => h.imp (fun h => h.symm) id⟩

/-- Characterisation of the glob match on one directory entry. -/
theorem glob_txt_match_iff (name : Str) :
    glob_txt_match name = true ↔ name.head? ≠ some '.' ∧ ['t', 'x', 't'] <:+ name := by
  unfold glob_txt_match
  split
  · next h => simp [h]
  · next h => simp [h, matchStarTxt_iff]

/-! Results for the claims. -/

/-- C1: one accumulate call on a table either creates a fresh entry for the
lowercased term, with count one, the single source and the single sentence, or
updates the existing entry: count incremented, source appended only when not
already present, sentence appended unconditionally. -/
theorem accumulate_spec (term source sentence : Str) (t : Table) :
    (dictGet (lowerStr term) t = none →
      dictGet (lowerStr term) (accumulate term source sentence t) =
        some ⟨1, [source], [sentence]⟩) ∧
    (∀ e : Entry, dictGet (lowerStr term) t = some e →
      dictGet (lowerStr term) (accumulate term source sentence t) =
        some ⟨e.count + 1,
              if source ∈ e.source then e.source else e.source ++ [source],
              e.sentence ++ [sentence]⟩) :=
  ⟨fun h => dictGet_add_of_none _ _ _ _ h, fun e h => dictGet_add_of_some _ _ _ _ e h⟩

/-- Witness for C1 at concrete inputs: the fresh case on the empty table and
the update case on a one-entry table. -/
theorem accumulate_spec_witness :
    dictGet (lowerStr ['C']) (accumulate ['C'] ['s'] ['x'] []) =
        some ⟨1, [['s']], [['x']]⟩ ∧
      dictGet (lowerStr ['C'])
          (accumulate ['C'] ['u'] ['y'] [(['c'], ⟨1, [['s']], [['x']]⟩)]) =
        some ⟨1 + 1,
              if ['u'] ∈ [['s']] then [['s']] else [['s']] ++ [['u']],
              [['x']] ++ [['y']]⟩ :=
  ⟨(accumulate_spec ['C'] ['s'] ['x'] []).1 (by decide),
   (accumulate_spec ['C'] ['u'] ['y'] [(['c'], ⟨1, [['s']], [['x']]⟩)]).2
     ⟨1, [['s']], [['x']]⟩ (by decide)⟩

/-- C2: after any finite sequence of accumulate calls starting from the empty
table, every entry's count equals the length of its sentence list. -/
theorem count_eq_sentences_len (calls : List (Str × Str × Str)) (p : Str × Entry)
    (hp : p ∈ runCalls calls []) : p.2.count = p.2.sentence.length :=
  runCalls_preserves (fun p => p.2.count = p.2.sentence.length)
    add_preserves_count_len calls [] (by simp) p hp

/-- Witness for C2: two accumulations of the same term yield count two and two
sentences. -/
theorem count_eq_sentences_len_witness :
    ((['a'], (⟨2, [['s']], [['x'], ['y']]⟩ : Entry)) ∈
        runCalls [(['a'], ['s'], ['x']), (['a'], ['s'], ['y'])] []) ∧
      (⟨2, [['s']], [['x'], ['y']]⟩ : Entry).count =
        (⟨2, [['s']], [['x'], ['y']]⟩ : Entry).sentence.length :=
  ⟨by decide,
   count_eq_sentences_len [(['a'], ['s'], ['x']), (['a'], ['s'], ['y'])]
     (['a'], ⟨2, [['s']], [['x'], ['y']]⟩) (by decide)⟩

/-- C3: two accumulate calls whose terms agree up to letter casing merge into a
single entry keyed by the lowercase form, with count two. -/
theorem accumulate_case_merge (t1 t2 s1 s2 x1 x2 : Str) (h : lowerStr t1 = lowerStr t2) :
    accumulate t2 s2 x2 (accumulate t1 s1 x1 []) =
      [(lowerStr t1, ⟨2, if s2 = s1 then [s1] else [s1, s2], [x1, x2]⟩)] := by
  simp [accumulate, add_kw_to_dict, ← h]

/-- Witness for C3 on the spec's example pair Cloud and cloud. -/
theorem accumulate_case_merge_witness :
    accumulate ['c', 'l', 'o', 'u', 'd'] ['b'] ['y']
        (accumulate ['C', 'l', 'o', 'u', 'd'] ['a'] ['x'] []) =
      [(lowerStr ['C', 'l', 'o', 'u', 'd'],
        ⟨2, if (['b'] : Str) = ['a'] then [['a']] else [['a'], ['b']], [['x'], ['y']]⟩)] :=
  accumulate_case_merge ['C', 'l', 'o', 'u', 'd'] ['c', 'l', 'o', 'u', 'd']
    ['a'] ['b'] ['x'] ['y'] (by decide)

/-- C4: the filter keeps an entry exactly when its term is not blacklisted and
its count reaches the threshold; in particular a count one below the threshold
is excluded and a count at the threshold is included. -/
theorem filter_rows_mem_iff (blacklist : List Str) (limit : Nat) (t : Table)
    (k : Str) (e : Entry) :
    (k, e) ∈ filter_rows blacklist limit t ↔
      (k, e) ∈ t ∧ k ∉ blacklist ∧ e.count ≥ limit := by
  induction t with
  | nil => simp [filter_rows]
  | cons q rest ih =>
    obtain ⟨k0, e0⟩ := q
    simp only [filter_rows]
    split
    · next hb =>
      rw [ih]
      simp only [List.mem_cons, Prod.mk.injEq]
      constructor
      · rintro ⟨hm, hbl, hc⟩
        exact ⟨Or.inr hm, hbl, hc⟩
      · rintro ⟨⟨hk, _⟩ | hm, hbl, hc⟩
        · subst hk; exact absurd hb hbl
        · exact ⟨hm, hbl, hc⟩
    · next hb =>
      split
      · next hc =>
        rw [List.mem_cons, ih]
        simp only [List.mem_cons, Prod.mk.injEq]
        constructor
        · rintro (⟨hk, he⟩ | ⟨hm, hbl, hcnt⟩)
          · subst hk; subst he; exact ⟨Or.inl ⟨rfl, rfl⟩, hb, hc⟩
          · exact ⟨Or.inr hm, hbl, hcnt⟩
        · rintro ⟨⟨hk, he⟩ | hm, hbl, hcnt⟩
          · subst hk; subst he; exact Or.inl ⟨rfl, rfl⟩
          · exact Or.inr ⟨hm, hbl, hcnt⟩
      · next hc =>
        rw [ih]
        simp only [List.mem_cons, Prod.mk.injEq]
        constructor
        · rintro ⟨hm, hbl, hcnt⟩
          exact ⟨Or.inr hm, hbl, hcnt⟩
        · rintro ⟨⟨hk, he⟩ | hm, hbl, hcnt⟩
          · subst hk; subst he; exact absurd hcnt hc
          · exact ⟨hm, hbl, hcnt⟩

/-- C5: after any finite sequence of accumulate calls starting from the empty
table, no entry's source list holds a duplicate file identifier. -/
theorem sources_nodup (calls : List (Str × Str × Str)) (p : Str × Entry)
    (hp : p ∈ runCalls calls []) : p.2.source.Nodup :=
  runCalls_preserves (fun p => p.2.source.Nodup)
    add_preserves_nodup calls [] (by simp) p hp

/-- Witness for C5: the same term accumulated twice from the same file keeps a
single source. -/
theorem sources_nodup_witness :
    ((['a'], (⟨2, [['s']], [['x'], ['y']]⟩ : Entry)) ∈
        runCalls [(['a'], ['s'], ['x']), (['a'], ['s'], ['y'])] []) ∧
      (⟨2, [['s']], [['x'], ['y']]⟩ : Entry).source.Nodup :=
  ⟨by decide,
   sources_nodup [(['a'], ['s'], ['x']), (['a'], ['s'], ['y'])]
     (['a'], ⟨2, [['s']], [['x'], ['y']]⟩) (by decide)⟩

/-- C6 counterexample: with an empty file list the run does not complete
successfully; the reporting step fails with the KeyError raised by sorting the
empty, column-less frame on the missing count column. -/
theorem empty_folder_run_errors :
    main_run (fun _ => []) (fun _ => []) 3 [] = Except.error "KeyError: count" := rfl

/-- C6 amended: with an empty file list the aggregation and filtering produce
an empty table (zero data rows), but the reporting step then raises KeyError on
the missing count column, so the run terminates with an error and writes no
output. -/
theorem empty_file_list_errors (sentencesOf scorer : Str → List Str) (limit : Nat) :
    (process_file_list sentencesOf scorer blacklistDefault limit []).2 = [] ∧
      main_run sentencesOf scorer limit [] = Except.error "KeyError: count" :=
  ⟨rfl, rfl⟩

/-- C7: raising the occurrence threshold never enlarges the filtered table. -/
theorem filter_rows_length_mono (blacklist : List Str) (lim1 lim2 : Nat) (t : Table)
    (h : lim1 ≤ lim2) :
    (filter_rows blacklist lim2 t).length ≤ (filter_rows blacklist lim1 t).length := by
  induction t with
  | nil => simp [filter_rows]
  | cons q rest ih =>
    obtain ⟨k0, e0⟩ := q
    simp only [filter_rows]
    split
    · exact ih
    · split
      · next hc2 =>
        split
        · next => simpa using ih
        · next hc1 => exact absurd (Nat.le_trans h hc2) hc1
      · next hc2 =>
        split
        · next => exact Nat.le_trans ih (Nat.le_succ _)
        · next => exact ih

/-- Witness for C7 at thresholds one and two over a one-entry table. -/
theorem filter_rows_length_mono_witness :
    (filter_rows [] 2 [(['a'], ⟨1, [['s']], [['x']]⟩)]).length ≤
      (filter_rows [] 1 [(['a'], ⟨1, [['s']], [['x']]⟩)]).length :=
  filter_rows_length_mono [] 1 2 [(['a'], ⟨1, [['s']], [['x']]⟩)] (by decide)

/-- C8 counterexample: the glob of line 133 uses the pattern star-t-x-t, not
star-dot-t-x-t, so the name a-t-x-t is processed although it does not end with
the dot-txt extension demanded by the spec. -/
theorem glob_vs_spec_pattern :
    matched_files [['a', 't', 'x', 't']] ≠
      List.filter spec_txt_match [['a', 't', 'x', 't']] := by decide

/-- C8 amended: the files processed by one run are exactly the directory
entries whose names do not start with a dot and end with the three characters
txt; no dot before the extension is required. -/
theorem matched_files_mem_iff (listing : List Str) (name : Str) :
    name ∈ matched_files listing ↔
      name ∈ listing ∧ name.head? ≠ some '.' ∧ ['t', 'x', 't'] <:+ name := by
  simp [matched_files, List.mem_filter, glob_txt_match_iff, and_assoc]

/-- C9 counterexample: the normalizer is not idempotent.  On the text al
Qaed-al Qaeda the first rewrite consumes the first occurrence and produces
alqaed-al Qaeda, which again contains the pattern, so a second application
changes the text once more. -/
theorem clean_text_not_idempotent :
    clean_text (clean_text (alQaedaPat ++ 'l' :: Char.ofNat 32 :: ['Q', 'a', 'e', 'd', 'a'])) ≠
      clean_text (alQaedaPat ++ 'l' :: Char.ofNat 32 :: ['Q', 'a', 'e', 'd', 'a']) := by
  decide

/-- C9 amended: the normalizer is idempotent on every input whose normalized
form no longer contains the pattern al Qaeda (in particular on all inputs where
the rewrite does not recreate the pattern across a replacement boundary). -/
theorem clean_text_idem_of_result_clean (x : Str)
    (h : containsAlQaeda (clean_text x) = false) :
    clean_text (clean_text x) = clean_text x :=
  clean_text_of_not_contains (clean_text x) h

/-- Witness for the amended C9: on the plain occurrence al Qaeda the rewrite
fires once and a second application changes nothing. -/
theorem clean_text_idem_of_result_clean_witness :
    containsAlQaeda (clean_text alQaedaPat) = false ∧
      clean_text (clean_text alQaedaPat) = clean_text alQaedaPat :=
  ⟨by decide, clean_text_idem_of_result_clean alQaedaPat (by decide)⟩

/-- C10: the normalizer's only rewrite is the al Qaeda collapse, so any text
not containing that substring is returned unchanged. -/
theorem clean_text_unchanged_without_pattern (x : Str)
    (h : containsAlQaeda x = false) : clean_text x = x :=
  clean_text_of_not_contains x h

/-- Witness for C10 on a two-character text. -/
theorem clean_text_unchanged_without_pattern_witness :
    containsAlQaeda ['h', 'i'] = false ∧ clean_text ['h', 'i'] = ['h', 'i'] :=
  ⟨by decide, clean_text_unchanged_without_pattern ['h', 'i'] (by decide)⟩

end WordExtractor
